import Mathlib

/-!
Verification of the Value-Searcher repository (src/search.py) against its
natural-language specification.

The Python source is shallowly embedded: pure helper functions become Lean
functions over `String`, `List Char`, `Int` and `Option`; the filesystem is
an explicit tree value; the process-wide regex-pattern cache is threaded as
an explicit association list; exceptions caught by the source are modelled
with `Except`.  Regex matching is only used on the literal, escaped search
term wrapped in word-boundary anchors, so its semantics is embedded directly
as: some case-insensitive occurrence of the term with a word boundary on both
sides.  Case folding and word characters are modelled at the ASCII level.
-/

namespace VS

/-! ## MatchEngine: is_exact_match, get_compiled_pattern (search.py lines 340-368) -/

/-- A word-constituent character in the sense of the regex class under a
word-boundary anchor: letter, digit or underscore (ASCII). -/
def isWordChar (c : Char) : Bool := c.isAlphanum || c == '_'

/-- Whether the character at index `i` of `t` is a word character;
out-of-range positions count as non-word. -/
def wordAt (t : List Char) (i : Nat) : Bool :=
  match t[i]? with
  | some c => isWordChar c
  | none => false

/-- The regex word-boundary assertion at position `i` of `t` (a position is a
boundary when exactly one of its two neighbouring characters is a word
character; the position before index 0 and the one past the end count as
non-word). -/
def boundaryAt (t : List Char) (i : Nat) : Bool :=
  (if i = 0 then false else wordAt t (i - 1)) != wordAt t i

/-- The escaped search term `s` occurs literally in `t` starting at index `i`. -/
def matchesAt (t s : List Char) (i : Nat) : Bool :=
  decide ((t.drop i).take s.length = s)

/-- ASCII lowercasing of a string, modelling the effect of re.IGNORECASE on
the pattern and Python str.lower on the subject. -/
def strToLower (s : String) : String := ⟨s.data.map Char.toLower⟩

/-- Semantics of `re.compile(r"\b" + re.escape(v) + r"\b", re.IGNORECASE).search(text)`
as built by get_compiled_pattern: because the term is escaped it is matched
literally, so a match is an occurrence of the (case-folded) term with the
word-boundary assertion holding at both ends.  IGNORECASE is modelled by
folding both strings to lower case (word-character status is invariant under
this fold, see isWordChar_toLower). -/
def word_boundary_search (search_value cell_value : String) : Bool :=
  let s := search_value.data.map Char.toLower
  let t := cell_value.data.map Char.toLower
  (List.range (t.length + 1)).any fun i =>
    matchesAt t s i && boundaryAt t i && boundaryAt t (i + s.length)

/-- `is_exact_match(cell_value, search_value)` (search.py lines 354-368): runs the
word-boundary pattern for the search value over the cell text.  The pattern
obtained through the process-wide cache is observationally identical to a
freshly compiled one (proved below), so the function is embedded as the pure
search; the cache-threading variant is `is_exact_match_cached`. -/
def is_exact_match (cell_value search_value : String) : Bool :=
  word_boundary_search search_value cell_value

/-- The match predicate exactly as the specification words it (claim C1):
the term occurs in the text as a whole word, case-insensitively, where a
word boundary means the occurrence is not immediately adjacent to a letter,
digit, or underscore.  Stated verbatim from the spec for comparison with the
code-derived `is_exact_match`; the two differ when the term has non-word
edge characters. -/
def spec_whole_word_match (cell_value search_value : String) : Bool :=
  let s := search_value.data.map Char.toLower
  let t := cell_value.data.map Char.toLower
  (List.range (t.length + 1)).any fun i =>
    matchesAt t s i && ((i == 0) || !(wordAt t (i - 1))) && !(wordAt t (i + s.length))

/-- A compiled regex pattern, represented by its matching function (the only
observable behaviour the program uses). -/
structure CompiledPattern where
  run : String → Bool

/-- `re.compile(r"\b" + re.escape(search_value) + r"\b", re.IGNORECASE)`. -/
def re_compile (search_value : String) : CompiledPattern :=
  ⟨fun text => word_boundary_search search_value text⟩

/-- The process-wide `_pattern_cache` dict, threaded explicitly. -/
abbrev PatternCache := List (String × CompiledPattern)

/-- `get_compiled_pattern` (search.py lines 344-351): return the cached
pattern for the search value, compiling and inserting it on a miss. -/
def get_compiled_pattern (cache : PatternCache) (search_value : String) :
    CompiledPattern × PatternCache :=
  match List.lookup search_value cache with
  | some p => (p, cache)
  | none =>
      let p := re_compile search_value
      (p, (search_value, p) :: cache)

/-- `is_exact_match` with the global pattern cache threaded explicitly
(the state-passing form of search.py lines 354-368). -/
def is_exact_match_cached (cache : PatternCache) (cell_value search_value : String) :
    Bool × PatternCache :=
  let pc := get_compiled_pattern cache search_value
  (pc.1.run cell_value, pc.2)

/-- Every entry of the cache maps a search value to the pattern compiled from
it; this holds for the empty initial cache and is preserved by every
operation the program performs on it. -/
def CacheWF (cache : PatternCache) : Prop :=
  ∀ k p, (k, p) ∈ cache → p = re_compile k

/-! ## Filesystem model -/

/-- A regular file: its base name and its last-modified timestamp
(`stat().st_mtime`; modelled as an integer, only its ordering is used). -/
structure FileNode where
  name : String
  mtime : Int

/-- A directory: base name, the regular files directly inside it, and its
immediate subdirectories.  Roots handed to the program are values of this
type (the existence and is-directory checks of the source are path-string
I/O glue outside the model). -/
inductive FSTree where
  | mk : String → List FileNode → List FSTree → FSTree

/-- Base name of the directory. -/
def FSTree.name : FSTree → String
  | .mk n _ _ => n

/-- Regular files directly inside the directory. -/
def FSTree.files : FSTree → List FileNode
  | .mk _ fs _ => fs

/-- Immediate subdirectories. -/
def FSTree.subdirs : FSTree → List FSTree
  | .mk _ _ subs => subs

/-- Structural induction for `FSTree` giving the hypothesis for every
immediate subdirectory. -/
def FSTree.indOn (P : FSTree → Prop)
    (h : ∀ n fs subs, (∀ c ∈ subs, P c) → P (.mk n fs subs)) :
    (t : FSTree) → P t
  | .mk n fs subs => h n fs subs fun c hc => FSTree.indOn P h c
termination_by t => sizeOf t
decreasing_by
  have := List.sizeOf_lt_of_mem hc
  simp only [FSTree.mk.sizeOf_spec]
  omega

/-! ## FolderClassifier (search.py lines 549-628) -/

/-- `SKIP_FOLDERS` (search.py line 550). -/
def SKIP_FOLDERS : List String := ["old", "test", "bug", "feasibility"]

/-- A folder name is in the skip set, compared case-insensitively
(`folder.name.lower() in SKIP_FOLDERS`). -/
def isSkipName (n : String) : Bool := SKIP_FOLDERS.any fun k => decide (k = strToLower n)

/-- `is_skip_folder` (search.py lines 553-555). -/
def is_skip_folder (folder : FSTree) : Bool := isSkipName folder.name

/-- `has_non_skip_subfolders` (search.py lines 563-571): some immediate
subdirectory is not a skip folder. -/
def has_non_skip_subfolders (folder : FSTree) : Bool :=
  folder.subdirs.any fun c => !(is_skip_folder c)

/-- `is_final_folder` (search.py lines 574-576). -/
def is_final_folder (folder : FSTree) : Bool := !(has_non_skip_subfolders folder)

/-- `SUPPORTED_EXTENSIONS` (search.py line 277). -/
def SUPPORTED_EXTENSIONS : List String :=
  [".xlsx", ".xls", ".docx", ".csv", ".gsheet", ".gdoc"]

/-- `pathlib.PurePath.suffix`: the extension from the last dot, provided that
dot is neither the first nor the last character of the name. -/
def fileSuffix (name : String) : String :=
  let cs := name.data
  match (cs.reverse.findIdx? fun c => c == '.') with
  | none => ""
  | some j =>
      let i := cs.length - 1 - j
      if 0 < i ∧ i < cs.length - 1 then ⟨cs.drop i⟩ else ""

/-- `get_supported_files` (search.py lines 579-588): the files of the folder
whose lower-cased suffix is a supported extension. -/
def get_supported_files (folder : FSTree) : List FileNode :=
  folder.files.filter fun f =>
    SUPPORTED_EXTENSIONS.any fun e => decide (e = strToLower (fileSuffix f.name))

/-- The scan of `max(files, key=lambda f: f.stat().st_mtime)`: fold over the
remaining files, replacing the current best only on a strictly larger
timestamp (Python max keeps the first maximal element encountered). -/
def maxByMtime (best : FileNode) : List FileNode → FileNode
  | [] => best
  | f :: rest => maxByMtime (if best.mtime < f.mtime then f else best) rest

/-- `get_most_recent_file` (search.py lines 591-595). -/
def get_most_recent_file : List FileNode → Option FileNode
  | [] => none
  | f :: rest => some (maxByMtime f rest)

mutual
/-- `scan_subtree` (search.py lines 598-616), together with `scanForest`:
the os.walk traversal from a root.  Each visited directory first has its
skip-named children pruned (so they are neither descended into nor
classified); a directory whose pruned child list is empty is collected as a
final folder.  `pre` is the path of the parent directory; collected folders
are returned as (path, directory) pairs since the Python code returns Path
values that the search phase then re-reads from the filesystem. -/
def scan_subtree (pre : List String) : FSTree → List (List String × FSTree)
  | .mk n fs subs =>
    (if (subs.filter fun c => !(isSkipName c.name)).isEmpty
      then [(pre ++ [n], FSTree.mk n fs subs)] else []) ++
    scanForest (pre ++ [n]) subs
/-- The walk over a list of sibling directories, skipping skip-named ones. -/
def scanForest (pre : List String) : List FSTree → List (List String × FSTree)
  | [] => []
  | c :: cs => (if isSkipName c.name then [] else scan_subtree pre c) ++ scanForest pre cs
end

/-- `get_top_level_subdirs` (search.py lines 619-628): immediate
subdirectories that are not skip folders. -/
def get_top_level_subdirs (root : FSTree) : List FSTree :=
  root.subdirs.filter fun c => !(isSkipName c.name)

/-- `str(folder)`: the full path string with "/" separators. -/
def pathStr : List String → String
  | [] => ""
  | [x] => x
  | x :: y :: ys => x ++ "/" ++ pathStr (y :: ys)

/-- Stable insertion used by `sortByKey`: place `x` before the first element
whose key is not below the key of `x`. -/
def insertByKey {α : Type} (key : α → String) (x : α) : List α → List α
  | [] => [x]
  | y :: ys => if key x ≤ key y then x :: y :: ys else y :: insertByKey key x ys

/-- Model of Python `sorted(l, key=key)` (a stable comparison sort on the
key): stable insertion sort. -/
def sortByKey {α : Type} (key : α → String) : List α → List α
  | [] => []
  | x :: xs => insertByKey key x (sortByKey key xs)

/-- `find_all_final_folders` (search.py lines 631-697): for each root, the
non-skip top-level subdirectories are scanned as independent subtrees (their
results unioned), and a root without any becomes a final folder itself; the
collected set is returned sorted by the lower-cased full path string
(`sorted(all_final_folders, key=lambda f: str(f).lower())`). -/
def find_all_final_folders (roots : List FSTree) : List (List String × FSTree) :=
  sortByKey (fun pu => strToLower (pathStr pu.1))
    (roots.flatMap fun root =>
      let tops := get_top_level_subdirs root
      if tops.isEmpty then [([root.name], root)]
      else tops.flatMap fun c => scan_subtree [root.name] c)

/-- Directory `u` lies at or below the root directory `t`, reached only
through non-skip-named subdirectories, with (root-relative) path `p`.  This
is the specification-side reachability notion used to state what the
classifier returns. -/
inductive Reachable : FSTree → List String → FSTree → Prop where
  | self (t : FSTree) : Reachable t [t.name] t
  | step {n : String} {fs : List FileNode} {subs : List FSTree}
      {c : FSTree} {p : List String} {u : FSTree} :
      c ∈ subs → isSkipName c.name = false → Reachable c p u →
      Reachable (FSTree.mk n fs subs) (n :: p) u

/-! ## ScanCoordinator (search.py lines 310-319, 700-776) -/

/-- `FolderResult` (search.py lines 310-319).  The formatted modification
time is modelled by the timestamp it is formatted from. -/
structure FolderResult where
  folder_name : String
  folder_path : String
  all_files : List String
  searched_file : Option String
  searched_file_modified : Option Int
  search_found : Bool
  search_details : Option String

/-- `process_single_folder` (search.py lines 707-742).  Per-format content
extraction is an external collaborator, so the dispatching
`search_in_file(file, search_value)` is passed in as `search_in_file` (the
concrete `.csv` instance is modelled below as `search_in_csv`).  A folder
with no supported files is skipped (returns none). -/
def process_single_folder (search_in_file : FileNode → String → Option String)
    (folder : List String × FSTree) (search_value : String) : Option FolderResult :=
  let files := get_supported_files folder.2
  let all_file_names := sortByKey (fun n => n) (files.map FileNode.name)
  if files.isEmpty then none
  else
    match get_most_recent_file files with
    | some most_recent =>
        let search_result := search_in_file most_recent search_value
        some { folder_name := folder.2.name
               folder_path := pathStr folder.1
               all_files := all_file_names
               searched_file := some most_recent.name
               searched_file_modified := some most_recent.mtime
               search_found := search_result.isSome
               search_details := search_result }
    | none =>
        some { folder_name := folder.2.name
               folder_path := pathStr folder.1
               all_files := all_file_names
               searched_file := none
               searched_file_modified := none
               search_found := false
               search_details := none }

/-- The result-collection loop of `search_in_final_folders` (search.py lines
762-773): each folder is processed inside try/except; a raised exception
(modelled by `Except.error`) or a none result leaves the accumulated list
untouched, otherwise the result is appended. -/
def folderLoop (step : List String × FSTree → Except Unit (Option FolderResult)) :
    List (List String × FSTree) → List FolderResult
  | [] => []
  | folder :: rest =>
      (match step folder with
       | .ok (some r) => [r]
       | .ok none => []
       | .error _ => []) ++ folderLoop step rest

/-- `search_in_final_folders` (search.py lines 745-776): discover the final
folders and process each in turn with `process_single_folder`. -/
def search_in_final_folders (search_in_file : FileNode → String → Option String)
    (search_value : String) (roots : List FSTree) : List FolderResult :=
  folderLoop (fun folder => Except.ok (process_single_folder search_in_file folder search_value))
    (find_all_final_folders roots)

/-! ## ContentExtractor instance: search_in_csv (search.py lines 461-526) -/

/-- Python `str.strip()` (ASCII whitespace). -/
def pyTrim (s : String) : String :=
  ⟨(s.data.dropWhile Char.isWhitespace).reverse.dropWhile Char.isWhitespace |>.reverse⟩

/-- Python `str.strip(ch)` for a single character. -/
def stripChar (ch : Char) (s : String) : String :=
  ⟨(s.data.dropWhile fun c => c == ch).reverse.dropWhile (fun c => c == ch) |>.reverse⟩

/-- `content.replace(crlf, lf).replace(cr, lf)` on the character list. -/
def normalizeNewlines : List Char → List Char
  | [] => []
  | '\r' :: '\n' :: rest => '\n' :: normalizeNewlines rest
  | '\r' :: rest => '\n' :: normalizeNewlines rest
  | c :: rest => c :: normalizeNewlines rest

/-- Split the decoded content into lines (`.split(lf)` after newline
normalization; keeps empty lines, which the row counter still numbers). -/
def splitLines (content : String) : List String :=
  ((⟨normalizeNewlines content.data⟩ : String).split fun c => c == '\n')

/-- The column-letter loop of search.py lines 505-510: 1-based column number
to spreadsheet letters (A, B, ..., Z, AA, ...). -/
def colLetterAux (n : Nat) (acc : List Char) : List Char :=
  if h : n = 0 then acc
  else colLetterAux ((n - 1) / 26) (Char.ofNat (65 + (n - 1) % 26) :: acc)
termination_by n
decreasing_by
  have := Nat.div_le_self (n - 1) 26
  omega

/-- Excel-like column letter for a 1-based column number. -/
def colLetter (n : Nat) : String := ⟨colLetterAux n []⟩

/-- The per-line cell attribution of search.py lines 500-513: the first cell
(split on a comma) whose cleaned text matches, as a column letter.  Cleaning
is strip() then strip of double quotes (char 34) then of single quotes
(char 39). -/
def findCell (cells : List String) (search_value : String) (idx : Nat) : Option String :=
  match cells with
  | [] => none
  | cell :: rest =>
      let cell_clean := stripChar (Char.ofNat 39) (stripChar (Char.ofNat 34) (pyTrim cell))
      if is_exact_match cell_clean search_value then some (colLetter (idx + 1))
      else findCell rest search_value (idx + 1)

/-- The row loop of search.py lines 493-517: blank lines are skipped (but
keep their row number); a line that matches as a whole is attributed to its
first matching cell, or reported as a bare row when no single cell matches. -/
def csvRows (row_idx : Nat) (lines : List String) (search_value : String) : List String :=
  match lines with
  | [] => []
  | line :: rest =>
      let tail := csvRows (row_idx + 1) rest search_value
      if pyTrim line = "" then tail
      else if is_exact_match line search_value then
        (match findCell (line.split fun c => c == ',') search_value 0 with
         | some col => "Row " ++ toString row_idx ++ ", Col " ++ col
         | none => "Row " ++ toString row_idx) :: tail
      else tail

/-- Python `sep.join(l)`. -/
def joinSep (sep : String) : List String → String
  | [] => ""
  | [m] => m
  | m :: rest => m ++ sep ++ joinSep sep rest

/-- The match-list formatting shared by every searcher (search.py line 520):
at most five locations are joined, any overflow is summarized as a count. -/
def formatMatches (ms : List String) : String :=
  joinSep "; " (ms.take 5) ++
    (if ms.length > 5 then " (+" ++ toString (ms.length - 5) ++ " more)" else "")

/-- `search_in_csv` (search.py lines 461-526).  The open/read/decode of the
file is I/O, so the function takes its outcome: `Except.error` models an
exception raised while reading (caught by the surrounding handler, which
returns None, i.e. no match), `Except.ok` the decoded text (the encoding
cascade itself never raises because of the errors="ignore" fallback; an
empty decode yields None through the `if not content` guard). -/
def search_in_csv (file : Except Unit String) (search_value : String) : Option String :=
  match file with
  | .error _ => none
  | .ok content =>
      if content = "" then none
      else
        let ms := csvRows 1 (splitLines content) search_value
        if ms.isEmpty then none
        else some (formatMatches ms)

/-! ## Startup dependency check (search.py lines 322-337, 833-909) -/

/-- `check_dependencies` (search.py lines 322-337): all three required
extraction libraries must be importable. -/
def check_dependencies (openpyxl_present xlrd_present docx_present : Bool) : Bool :=
  openpyxl_present && xlrd_present && docx_present

/-- The exit status of the main block (search.py lines 833-909): a missing
required library exits with status 1 before any scanning; everything else -
including any exception escaping the run, which the final try/except prints
and swallows - ends the process normally. -/
def main_exit_code (openpyxl_present xlrd_present docx_present : Bool)
    (_run_outcome : Except Unit (List FolderResult)) : Nat :=
  if !(check_dependencies openpyxl_present xlrd_present docx_present) then 1 else 0

/-! ## MatchEngine lemmas -/

/-- ASCII lowercasing does not change whether a character is a word
character (uppercase letters map to lowercase letters, everything else is
unchanged). -/
theorem isWordChar_toLower (c : Char) : isWordChar (Char.toLower c) = isWordChar c := by
  have key : ∀ n : Nat, 65 ≤ n → n ≤ 90 →
      isWordChar (Char.ofNat (n + 32)) = isWordChar (Char.ofNat n) := by
    intro n h1 h2
    interval_cases n <;> decide
  unfold Char.toLower
  by_cases h : c.toNat ≥ 65 ∧ c.toNat ≤ 90
  · rw [if_pos h, key c.toNat h.1 h.2, Char.ofNat_toNat]
  · rw [if_neg h]

theorem list_any_congr {α : Type} {l : List α} {f g : α → Bool}
    (h : ∀ x ∈ l, f x = g x) : l.any f = l.any g := by
  induction l with
  | nil => rfl
  | cons a l ih =>
      simp only [List.any_cons, h a (List.mem_cons_self a l)]
      rw [ih fun x hx => h x (List.mem_cons_of_mem a hx)]

/-- A literal occurrence at `i` fixes every character of `t` under it. -/
theorem matchesAt_getElem {t s : List Char} {i : Nat} (hm : matchesAt t s i = true)
    {j : Nat} (hj : j < s.length) : t[i + j]? = s[j]? := by
  have hEq : (t.drop i).take s.length = s := of_decide_eq_true hm
  rw [← hEq, List.getElem?_take_of_lt hj, List.getElem?_drop]

/-- When the term has word characters at both edges, the word-boundary
assertions of the compiled pattern coincide, position by position, with the
"not adjacent to a word character" reading of the specification. -/
theorem pred_edge_eq (t s : List Char) (s0 sl : Char)
    (h0 : s[0]? = some s0) (hl : s[s.length - 1]? = some sl)
    (hw0 : isWordChar s0 = true) (hwl : isWordChar sl = true) (i : Nat) :
    (matchesAt t s i && boundaryAt t i && boundaryAt t (i + s.length)) =
    (matchesAt t s i && ((i == 0) || !(wordAt t (i - 1))) && !(wordAt t (i + s.length))) := by
  cases hm : matchesAt t s i with
  | false => simp
  | true =>
    have hslen : 0 < s.length := by
      rcases List.getElem?_eq_some.mp h0 with ⟨h, _⟩
      omega
    have ht0 : t[i]? = some s0 := by
      have := matchesAt_getElem hm hslen
      simpa [h0] using this
    have htl : t[i + s.length - 1]? = some sl := by
      have hj : s.length - 1 < s.length := by omega
      have h1 := matchesAt_getElem hm hj
      have harith : i + (s.length - 1) = i + s.length - 1 := by omega
      rw [harith] at h1
      rw [h1, hl]
    have hw_i : wordAt t i = true := by
      unfold wordAt
      rw [ht0]
      exact hw0
    have hw_end : wordAt t (i + s.length - 1) = true := by
      unfold wordAt
      rw [htl]
      exact hwl
    have hb1 : boundaryAt t i = ((i == 0) || !(wordAt t (i - 1))) := by
      unfold boundaryAt
      rw [hw_i]
      cases i with
      | zero => simp
      | succ k =>
          have hne : k + 1 ≠ 0 := Nat.succ_ne_zero k
          rw [if_neg hne]
          simp only [Nat.add_sub_cancel]
          cases wordAt t k <;> rfl
    have hb2 : boundaryAt t (i + s.length) = !(wordAt t (i + s.length)) := by
      unfold boundaryAt
      have hne : i + s.length ≠ 0 := by omega
      rw [if_neg hne, hw_end]
      cases wordAt t (i + s.length) <;> rfl
    rw [hb1, hb2]

/-- C1 (amended): for every term whose first and last characters are word
characters (letters, digits, underscore), is_exact_match returns true iff
the term occurs in the text as a whole word, case-insensitively, where a
word boundary means the occurrence is not immediately adjacent to a letter,
digit, or underscore; in particular isExactMatch("Anna","anna") = true,
isExactMatch("Joanna","anna") = false, isExactMatch("annabel","anna") =
false, isExactMatch("Hello Anna!","anna") = true, and
isExactMatch("Anna,Bob","anna") = true.  (The unrestricted claim is refuted
by c1_counterexample: a term with a non-word edge character.) -/
theorem c1_exact_match_word_edges :
    (∀ (text term : String) (c0 cl : Char),
       term.data.head? = some c0 → term.data.getLast? = some cl →
       isWordChar c0 = true → isWordChar cl = true →
       is_exact_match text term = spec_whole_word_match text term)
    ∧ is_exact_match "Anna" "anna" = true
    ∧ is_exact_match "Joanna" "anna" = false
    ∧ is_exact_match "annabel" "anna" = false
    ∧ is_exact_match "Hello Anna!" "anna" = true
    ∧ is_exact_match "Anna,Bob" "anna" = true := by
  refine ⟨?_, by decide, by decide, by decide, by decide, by decide⟩
  intro text term c0 cl h0 hl hw0 hwl
  have hd0 : term.data[0]? = some c0 := by
    cases hd : term.data with
    | nil => rw [hd] at h0; simp at h0
    | cons a l => rw [hd] at h0; simpa using h0
  have hs0 : (term.data.map Char.toLower)[0]? = some (Char.toLower c0) := by
    rw [List.getElem?_map, hd0]
    rfl
  have hdl : term.data[term.data.length - 1]? = some cl := by
    rw [← List.getLast?_eq_getElem?]
    exact hl
  have hsl : (term.data.map Char.toLower)[(term.data.map Char.toLower).length - 1]? =
      some (Char.toLower cl) := by
    rw [List.length_map, List.getElem?_map, hdl]
    rfl
  have hws0 : isWordChar (Char.toLower c0) = true := by
    rw [isWordChar_toLower]
    exact hw0
  have hwsl : isWordChar (Char.toLower cl) = true := by
    rw [isWordChar_toLower]
    exact hwl
  unfold is_exact_match word_boundary_search spec_whole_word_match
  exact list_any_congr fun i _ =>
    pred_edge_eq (text.data.map Char.toLower) (term.data.map Char.toLower)
      (Char.toLower c0) (Char.toLower cl) hs0 hsl hws0 hwsl i

/-- Witness for c1_exact_match_word_edges at text "Hello Anna!", term
"anna". -/
theorem c1_exact_match_word_edges_witness :
    is_exact_match "Hello Anna!" "anna" = spec_whole_word_match "Hello Anna!" "anna" :=
  c1_exact_match_word_edges.1 "Hello Anna!" "anna" 'a' 'a' rfl rfl (by decide) (by decide)

/-- Counterexample to C1 as stated: the term "go!" occurs in "stop go! now"
as a whole word in the sense of the claim (it is surrounded by spaces, so
not adjacent to any letter, digit or underscore), yet is_exact_match
returns false, because the trailing word-boundary anchor fails after the
non-word character "!". -/
theorem c1_counterexample :
    spec_whole_word_match "stop go! now" "go!" = true ∧
    is_exact_match "stop go! now" "go!" = false := by
  constructor <;> decide

/-- C10: there is a search term and a text in which the term occurs
surrounded by spaces for which is_exact_match returns false: the term
"anna!" ends in the non-word character "!", so the trailing word-boundary
anchor wrapped around the escaped term cannot hold there, and the
occurrence in "say anna! now" is missed. -/
theorem c10_nonword_edge_term_missed :
    is_exact_match "say anna! now" "anna!" = false ∧
    spec_whole_word_match "say anna! now" "anna!" = true ∧
    ("anna!").data.getLast? = some '!' ∧
    isWordChar '!' = false := by
  refine ⟨by decide, by decide, rfl, by decide⟩

/-- A successful association-list lookup is a membership. -/
theorem mem_of_lookup_eq_some {l : PatternCache} {k : String} {p : CompiledPattern}
    (h : List.lookup k l = some p) : (k, p) ∈ l := by
  induction l with
  | nil => simp [List.lookup] at h
  | cons a l ih =>
      rcases a with ⟨k1, p1⟩
      cases hk : (k == k1) with
      | false =>
          simp only [List.lookup, hk] at h
          exact List.mem_cons_of_mem _ (ih h)
      | true =>
          simp only [List.lookup, hk, Option.some.injEq] at h
          have hk2 : k = k1 := eq_of_beq hk
          rw [hk2, ← h]
          exact List.mem_cons_self _ _

/-- C9: looking the pattern up through the process-wide cache has no
observable effect: on any well-formed cache state, the cached
is_exact_match returns the same boolean as the cache-free variant that
compiles the word-boundary pattern afresh, and the cache stays well-formed. -/
theorem c9_cache_transparent :
    ∀ (cache : PatternCache) (text term : String), CacheWF cache →
      (is_exact_match_cached cache text term).1 = is_exact_match text term
      ∧ CacheWF (is_exact_match_cached cache text term).2 := by
  intro cache text term hwf
  unfold is_exact_match_cached get_compiled_pattern
  cases hlk : List.lookup term cache with
  | some p =>
      have hmem : (term, p) ∈ cache := mem_of_lookup_eq_some hlk
      have hp : p = re_compile term := hwf term p hmem
      subst hp
      exact ⟨rfl, hwf⟩
  | none =>
      refine ⟨rfl, ?_⟩
      intro k p hkp
      rcases List.mem_cons.mp hkp with h | h
      · rw [Prod.mk.injEq] at h
        rw [h.2, h.1]
      · exact hwf k p h

/-- Witness for c9_cache_transparent on the empty initial cache. -/
theorem c9_cache_transparent_witness :
    (is_exact_match_cached [] "Anna" "anna").1 = is_exact_match "Anna" "anna" :=
  (c9_cache_transparent [] "Anna" "anna" fun k p h => absurd h (List.not_mem_nil _)).1

/-! ## FolderClassifier lemmas -/

/-- A directory is final exactly when pruning the skip-named children leaves
nothing (the form the os.walk loop tests). -/
theorem is_final_folder_eq_filter (n : String) (fs : List FileNode) (subs : List FSTree) :
    is_final_folder (.mk n fs subs) = (subs.filter fun c => !(isSkipName c.name)).isEmpty := by
  simp only [is_final_folder, has_non_skip_subfolders, FSTree.subdirs, is_skip_folder]
  induction subs with
  | nil => rfl
  | cons c cs ih =>
      simp only [List.any_cons, List.filter_cons]
      cases hsk : isSkipName c.name <;> simp [hsk, ih]

/-- Membership in the forest walk: exactly the members of the walks of the
non-skip-named children. -/
theorem mem_scanForest {pre q : List String} {subs : List FSTree} {u : FSTree} :
    (q, u) ∈ scanForest pre subs ↔
      ∃ c ∈ subs, isSkipName c.name = false ∧ (q, u) ∈ scan_subtree pre c := by
  induction subs with
  | nil => simp [scanForest]
  | cons c cs ih =>
      cases hc : isSkipName c.name with
      | true =>
          simp only [scanForest, hc, if_true, List.nil_append, ih]
          constructor
          · rintro ⟨c1, h1, h2, h3⟩
            exact ⟨c1, List.mem_cons_of_mem _ h1, h2, h3⟩
          · rintro ⟨c1, h1, h2, h3⟩
            rcases List.mem_cons.mp h1 with rfl | h1
            · rw [hc] at h2
              cases h2
            · exact ⟨c1, h1, h2, h3⟩
      | false =>
          simp only [scanForest, hc, if_false, List.mem_append, ih]
          constructor
          · rintro (h | ⟨c1, h1, h2, h3⟩)
            · exact ⟨c, List.mem_cons_self _ _, hc, h⟩
            · exact ⟨c1, List.mem_cons_of_mem _ h1, h2, h3⟩
          · rintro ⟨c1, h1, h2, h3⟩
            rcases List.mem_cons.mp h1 with rfl | h1
            · exact .inl h3
            · exact .inr ⟨c1, h1, h2, h3⟩

/-- Characterization of `scan_subtree`: it collects exactly the final
directories reachable from the root through non-skip-named subdirectories. -/
theorem mem_scan_subtree (t : FSTree) : ∀ (pre q : List String) (u : FSTree),
    (q, u) ∈ scan_subtree pre t ↔
      ∃ p, q = pre ++ p ∧ Reachable t p u ∧ is_final_folder u = true := by
  induction t using FSTree.indOn with
  | h n fs subs ih =>
      intro pre q u
      have hunf : scan_subtree pre (.mk n fs subs) =
          (if (subs.filter fun c => !(isSkipName c.name)).isEmpty
            then [(pre ++ [n], FSTree.mk n fs subs)] else []) ++
          scanForest (pre ++ [n]) subs := rfl
      rw [hunf, List.mem_append]
      constructor
      · rintro (hA | hB)
        · split at hA
          next hEmp =>
            rcases List.mem_singleton.mp hA with h
            obtain ⟨hq, hu⟩ := Prod.mk.injEq .. ▸ h
            subst hu
            refine ⟨[n], hq, Reachable.self _, ?_⟩
            rw [is_final_folder_eq_filter, hEmp]
          next => simp at hA
        · rcases mem_scanForest.mp hB with ⟨c, hcmem, hcskip, hcm⟩
          rcases (ih c hcmem (pre ++ [n]) q u).mp hcm with ⟨p1, hq, hr, hf⟩
          refine ⟨n :: p1, ?_, Reachable.step hcmem hcskip hr, hf⟩
          rw [hq, List.append_assoc]
          rfl
      · rintro ⟨p, hq, hr, hf⟩
        cases hr with
        | self =>
            left
            rw [is_final_folder_eq_filter] at hf
            rw [if_pos hf]
            exact List.mem_singleton.mpr (by rw [hq]; rfl)
        | step hcmem hcskip hr1 =>
            right
            apply mem_scanForest.mpr
            refine ⟨_, hcmem, hcskip, (ih _ hcmem (pre ++ [n]) q u).mpr ⟨_, ?_, hr1, hf⟩⟩
            rw [hq, List.append_assoc]
            rfl

/-- Along any reachability derivation the path starts at the root name and
every later component is a non-skip name. -/
theorem reachable_facts {t : FSTree} {p : List String} {u : FSTree} (h : Reachable t p u) :
    p.head? = some t.name ∧ ∀ x ∈ p.drop 1, isSkipName x = false := by
  induction h with
  | self t => exact ⟨rfl, by simp⟩
  | step hcmem hcskip hr ih =>
      refine ⟨rfl, ?_⟩
      simp only [List.drop_succ_cons, List.drop_zero]
      rcases ih with ⟨ih1, ih2⟩
      intro x hx
      rename_i c p1 u1
      cases hp : p1 with
      | nil =>
          rw [hp] at hx
          simp at hx
      | cons a rest =>
          rw [hp] at ih1 hx ih2
          have ha : a = c.name := by simpa using ih1
          rcases List.mem_cons.mp hx with rfl | hx2
          · rw [ha]
            exact hcskip
          · apply ih2 x
            simpa using hx2

/-- C2: the classification of a root subtree returns exactly the directories
at or below the root - reached only through non-skip-named subdirectories -
that have no non-skip immediate subdirectory (a directory is final iff every
immediate subdirectory is absent or skip-named, names compared
case-insensitively); consequently no skip-named directory below the root,
and nothing under one, is ever in the result: skip-named directories are
pruned before descent. -/
theorem c2_classifier_correct (t : FSTree) :
    (∀ q u, (q, u) ∈ scan_subtree [] t ↔ Reachable t q u ∧ is_final_folder u = true)
    ∧ (∀ u : FSTree, is_final_folder u = true ↔ ∀ c ∈ u.subdirs, isSkipName c.name = true)
    ∧ (∀ p u, Reachable t p u → ∀ x ∈ p.drop 1, isSkipName x = false) := by
  refine ⟨?_, ?_, ?_⟩
  · intro q u
    rw [mem_scan_subtree t [] q u]
    constructor
    · rintro ⟨p, hq, hr, hf⟩
      simp only [List.nil_append] at hq
      subst hq
      exact ⟨hr, hf⟩
    · rintro ⟨hr, hf⟩
      exact ⟨q, by simp, hr, hf⟩
  · intro u
    cases u with
    | mk n fs subs =>
        rw [is_final_folder_eq_filter]
        simp only [FSTree.subdirs, List.isEmpty_iff, List.filter_eq_nil_iff]
        constructor
        · intro h c hc
          have := h c hc
          revert this
          cases isSkipName c.name <;> simp
        · intro h c hc
          rw [h c hc]
          simp
  · intro p u hr
    exact (reachable_facts hr).2

/-- Witness for c2_classifier_correct on the tree r/a/Old: the directory a
(whose only subdirectory is the skip-named Old) is classified final with
path r/a, and the below-root path component a is not skip-named. -/
theorem c2_classifier_correct_witness :
    ((["r", "a"], FSTree.mk "a" [] [FSTree.mk "Old" [] []]) ∈
      scan_subtree [] (FSTree.mk "r" [] [FSTree.mk "a" [] [FSTree.mk "Old" [] []]]))
    ∧ isSkipName "a" = false := by
  have hreach : Reachable (FSTree.mk "r" [] [FSTree.mk "a" [] [FSTree.mk "Old" [] []]])
      ["r", "a"] (FSTree.mk "a" [] [FSTree.mk "Old" [] []]) :=
    Reachable.step (List.mem_singleton_self _) (by decide)
      (Reachable.self (FSTree.mk "a" [] [FSTree.mk "Old" [] []]))
  refine ⟨?_, ?_⟩
  · exact ((c2_classifier_correct _).1 _ _).mpr ⟨hreach, by decide⟩
  · have := (c2_classifier_correct
        (FSTree.mk "r" [] [FSTree.mk "a" [] [FSTree.mk "Old" [] []]])).2.2 _ _ hreach
    exact this "a" (by simp)

/-! ## RecencySelector lemmas -/

theorem maxByMtime_mem (l : List FileNode) : ∀ best, maxByMtime best l ∈ best :: l := by
  induction l with
  | nil =>
      intro best
      simp [maxByMtime]
  | cons f rest ih =>
      intro best
      simp only [maxByMtime]
      by_cases hc : best.mtime < f.mtime
      · rw [if_pos hc]
        rcases List.mem_cons.mp (ih f) with h | h
        · rw [h]
          exact List.mem_cons_of_mem _ (List.mem_cons_self _ _)
        · exact List.mem_cons_of_mem _ (List.mem_cons_of_mem _ h)
      · rw [if_neg hc]
        rcases List.mem_cons.mp (ih best) with h | h
        · rw [h]
          exact List.mem_cons_self _ _
        · exact List.mem_cons_of_mem _ (List.mem_cons_of_mem _ h)

theorem maxByMtime_ge (l : List FileNode) : ∀ best,
    best.mtime ≤ (maxByMtime best l).mtime ∧
    ∀ g ∈ l, g.mtime ≤ (maxByMtime best l).mtime := by
  induction l with
  | nil =>
      intro best
      exact ⟨le_refl _, by simp⟩
  | cons f rest ih =>
      intro best
      simp only [maxByMtime]
      by_cases hc : best.mtime < f.mtime
      · rw [if_pos hc]
        rcases ih f with ⟨h1, h2⟩
        refine ⟨le_of_lt (lt_of_lt_of_le hc h1), ?_⟩
        intro g hg
        rcases List.mem_cons.mp hg with rfl | hg
        · exact h1
        · exact h2 g hg
      · rw [if_neg hc]
        rcases ih best with ⟨h1, h2⟩
        refine ⟨h1, ?_⟩
        intro g hg
        rcases List.mem_cons.mp hg with rfl | hg
        · exact le_trans (le_of_not_lt hc) h1
        · exact h2 g hg

/-- Python max keeps the first maximal element: if nothing later is strictly
larger than the first file, the first file is returned. -/
theorem maxByMtime_stay (l : List FileNode) : ∀ best,
    (∀ g ∈ l, g.mtime ≤ best.mtime) → maxByMtime best l = best := by
  induction l with
  | nil =>
      intro best _
      rfl
  | cons f rest ih =>
      intro best h
      simp only [maxByMtime]
      rw [if_neg (not_lt.mpr (h f (List.mem_cons_self _ _)))]
      exact ih best fun g hg => h g (List.mem_cons_of_mem _ hg)

/-- C3: get_most_recent_file returns none exactly on the empty list,
otherwise a file of the list whose timestamp is maximal; the tie-break is
deterministic for a fixed input ordering - the first file encountered among
those with the maximal timestamp wins (stated here as: whenever no later
file is strictly newer than the head, the head is returned; the function is
pure, so repeated calls on the same ordered input return the same file). -/
theorem c3_most_recent_correct : ∀ files : List FileNode,
    (get_most_recent_file files = none ↔ files = [])
    ∧ (∀ f, get_most_recent_file files = some f →
        f ∈ files ∧ ∀ g ∈ files, g.mtime ≤ f.mtime)
    ∧ (∀ a l, files = a :: l → (∀ g ∈ l, g.mtime ≤ a.mtime) →
        get_most_recent_file files = some a) := by
  intro files
  refine ⟨?_, ?_, ?_⟩
  · cases files with
    | nil => simp [get_most_recent_file]
    | cons f rest => simp [get_most_recent_file]
  · intro f hf
    cases files with
    | nil => simp [get_most_recent_file] at hf
    | cons a l =>
        simp only [get_most_recent_file, Option.some.injEq] at hf
        subst hf
        refine ⟨maxByMtime_mem l a, ?_⟩
        intro g hg
        rcases List.mem_cons.mp hg with h | hg
        · rw [h]
          exact (maxByMtime_ge l a).1
        · exact (maxByMtime_ge l a).2 g hg
  · intro a l hfl hle
    subst hfl
    simp only [get_most_recent_file, Option.some.injEq]
    exact maxByMtime_stay l a hle

/-- Witness for c3_most_recent_correct: two files with equal timestamps; the
first one in the input ordering is selected. -/
theorem c3_most_recent_correct_witness :
    get_most_recent_file [⟨"a.csv", 3⟩, ⟨"b.csv", 3⟩] = some ⟨"a.csv", 3⟩ :=
  (c3_most_recent_correct _).2.2 ⟨"a.csv", 3⟩ [⟨"b.csv", 3⟩] rfl (by decide)

/-! ## Sorting lemmas -/

theorem mem_insertByKey {α : Type} (key : α → String) (x z : α) (l : List α) :
    z ∈ insertByKey key x l ↔ z = x ∨ z ∈ l := by
  induction l with
  | nil => simp [insertByKey]
  | cons y ys ih =>
      simp only [insertByKey]
      split
      · simp [List.mem_cons]
      · simp only [List.mem_cons, ih]
        tauto

theorem mem_sortByKey {α : Type} (key : α → String) (z : α) (l : List α) :
    z ∈ sortByKey key l ↔ z ∈ l := by
  induction l with
  | nil => simp [sortByKey]
  | cons x xs ih => simp [sortByKey, mem_insertByKey, ih]

theorem insertByKey_ne_nil {α : Type} (key : α → String) (x : α) (l : List α) :
    insertByKey key x l ≠ [] := by
  cases l with
  | nil => simp [insertByKey]
  | cons y ys =>
      simp only [insertByKey]
      split <;> simp

theorem sortByKey_eq_nil_iff {α : Type} (key : α → String) (l : List α) :
    sortByKey key l = [] ↔ l = [] := by
  cases l with
  | nil => simp [sortByKey]
  | cons x xs =>
      simp only [sortByKey]
      constructor
      · intro h
        exact absurd h (insertByKey_ne_nil key x _)
      · intro h
        cases h

theorem pairwise_insertByKey {α : Type} (key : α → String) (x : α) (l : List α)
    (h : List.Pairwise (fun a b => key a ≤ key b) l) :
    List.Pairwise (fun a b => key a ≤ key b) (insertByKey key x l) := by
  induction l with
  | nil => simp [insertByKey]
  | cons y ys ih =>
      rcases List.pairwise_cons.mp h with ⟨hy, hys⟩
      simp only [insertByKey]
      split
      next hxy =>
        refine List.pairwise_cons.mpr ⟨?_, h⟩
        intro z hz
        rcases List.mem_cons.mp hz with h1 | h1
        · rw [h1]
          exact hxy
        · exact le_trans hxy (hy z h1)
      next hxy =>
        have hyx : key y ≤ key x := le_of_not_le hxy
        refine List.pairwise_cons.mpr ⟨?_, ih hys⟩
        intro z hz
        rcases (mem_insertByKey key x z ys).mp hz with h1 | h1
        · rw [h1]
          exact hyx
        · exact hy z h1

/-- The model of Python sorted produces a list that is pairwise ordered by
its key. -/
theorem pairwise_sortByKey {α : Type} (key : α → String) (l : List α) :
    List.Pairwise (fun a b => key a ≤ key b) (sortByKey key l) := by
  induction l with
  | nil => simp [sortByKey]
  | cons x xs ih => exact pairwise_insertByKey key x _ ih

/-! ## Coordinator lemmas -/

/-- Membership in the collected results: exactly the folders whose step
succeeds with a result. -/
theorem mem_folderLoop {step : List String × FSTree → Except Unit (Option FolderResult)}
    {l : List (List String × FSTree)} {r : FolderResult} :
    r ∈ folderLoop step l ↔ ∃ f ∈ l, step f = .ok (some r) := by
  induction l with
  | nil =>
      constructor
      · intro h
        exact absurd h (List.not_mem_nil _)
      · rintro ⟨f, hf, _⟩
        exact absurd hf (List.not_mem_nil _)
  | cons x xs ih =>
      simp only [folderLoop, List.mem_append, ih]
      constructor
      · rintro (h | ⟨f, hf, hstep⟩)
        · refine ⟨x, List.mem_cons_self _ _, ?_⟩
          revert h
          cases hs : step x with
          | error e => simp
          | ok o =>
              cases o with
              | none => simp
              | some r0 =>
                  simp only [List.mem_singleton]
                  intro h
                  rw [h]
        · exact ⟨f, List.mem_cons_of_mem _ hf, hstep⟩
      · rintro ⟨f, hf, hstep⟩
        rcases List.mem_cons.mp hf with h | h
        · left
          rw [← h, hstep]
          simp
        · exact .inr ⟨f, h, hstep⟩

/-- A step that raises contributes nothing and disturbs nothing: the loop
over any list containing it returns exactly the loop over the rest. -/
theorem folderLoop_error_skip (step : List String × FSTree → Except Unit (Option FolderResult))
    (l1 : List (List String × FSTree)) (x : List String × FSTree)
    (l2 : List (List String × FSTree)) (e : Unit) (hx : step x = .error e) :
    folderLoop step (l1 ++ x :: l2) = folderLoop step (l1 ++ l2) := by
  induction l1 with
  | nil => simp [folderLoop, hx]
  | cons y ys ih =>
      rw [List.cons_append, List.cons_append]
      simp only [folderLoop]
      rw [ih]

/-- `process_single_folder` returns none exactly for folders with no
supported files. -/
theorem process_none_iff (sif : FileNode → String → Option String)
    (folder : List String × FSTree) (v : String) :
    process_single_folder sif folder v = none ↔ get_supported_files folder.2 = [] := by
  simp only [process_single_folder]
  by_cases h : (get_supported_files folder.2).isEmpty
  · rw [if_pos h]
    simp [List.isEmpty_iff.mp h]
  · rw [if_neg h]
    have hne : ¬ get_supported_files folder.2 = [] := fun hh => h (by simp [hh])
    split <;> simp [hne]

/-- Every produced outcome carries the path of the folder it was produced
from. -/
theorem process_some_path (sif : FileNode → String → Option String)
    (folder : List String × FSTree) (v : String) (r : FolderResult)
    (h : process_single_folder sif folder v = some r) :
    r.folder_path = pathStr folder.1 := by
  simp only [process_single_folder] at h
  by_cases hE : (get_supported_files folder.2).isEmpty
  · rw [if_pos hE] at h
    cases h
  · rw [if_neg hE] at h
    split at h <;> (cases h; rfl)

/-- Pairwise order on the final-folder list transfers to the result list,
because the loop preserves order and each outcome carries its folder. -/
theorem pairwise_folderLoop (g : List String × FSTree → Option FolderResult)
    (S : FolderResult → FolderResult → Prop)
    (R : List String × FSTree → List String × FSTree → Prop)
    (l : List (List String × FSTree)) (hP : List.Pairwise R l)
    (hcompat : ∀ a b r s, R a b → g a = some r → g b = some s → S r s) :
    List.Pairwise S (folderLoop (fun f => .ok (g f)) l) := by
  induction l with
  | nil => simp [folderLoop]
  | cons x xs ih =>
      rcases List.pairwise_cons.mp hP with ⟨hx, hxs⟩
      simp only [folderLoop]
      cases hg : g x with
      | none => simpa using ih hxs
      | some r =>
          simp only [List.singleton_append]
          refine List.pairwise_cons.mpr ⟨?_, ih hxs⟩
          intro s hs
          rcases mem_folderLoop.mp hs with ⟨f, hf, hfs⟩
          have hgf : g f = some s := by
            injection hfs
          exact hcompat x f r s (hx f hf) hg hgf

/-- Every discovered final folder has a below-root path free of skip names:
roots contribute their bare name, and scanned subtrees only reachable
paths. -/
theorem find_all_no_skip_below_root (roots : List FSTree) :
    ∀ pu ∈ find_all_final_folders roots, ∀ x ∈ pu.1.drop 1, isSkipName x = false := by
  intro pu hpu x hx
  rw [find_all_final_folders, mem_sortByKey] at hpu
  rcases List.mem_flatMap.mp hpu with ⟨root, _, hmem⟩
  by_cases hTop : (get_top_level_subdirs root).isEmpty
  · rw [if_pos hTop] at hmem
    rcases List.mem_singleton.mp hmem with h
    rw [h] at hx
    simp at hx
  · rw [if_neg hTop] at hmem
    rcases List.mem_flatMap.mp hmem with ⟨c, hc, hscan⟩
    have hcns : isSkipName c.name = false := by
      have := (List.mem_filter.mp hc).2
      revert this
      cases isSkipName c.name <;> simp
    rcases pu with ⟨q, u⟩
    rcases (mem_scan_subtree c [root.name] q u).mp hscan with ⟨p, hq, hr, _⟩
    rcases reachable_facts hr with ⟨hhead, htail⟩
    rw [hq] at hx
    have hxp : x ∈ p := by simpa using hx
    cases hp : p with
    | nil =>
        rw [hp] at hxp
        simp at hxp
    | cons a rest =>
        rw [hp] at hhead htail hxp
        have ha : a = c.name := by simpa using hhead
        rcases List.mem_cons.mp hxp with h1 | h1
        · rw [h1, ha]
          exact hcns
        · apply htail x
          simpa using h1

/-- The loop produces exactly as many outcomes as there are final folders
with at least one supported file. -/
theorem folderLoop_process_length (sif : FileNode → String → Option String) (v : String)
    (finals : List (List String × FSTree)) :
    (folderLoop (fun f => Except.ok (process_single_folder sif f v)) finals).length =
    (finals.filter fun pu => !(get_supported_files pu.2).isEmpty).length := by
  induction finals with
  | nil => rfl
  | cons x xs ih =>
      simp only [folderLoop, List.filter_cons]
      cases hp : process_single_folder sif x v with
      | some r =>
          have hne : ¬ get_supported_files x.2 = [] := by
            intro hh
            rw [(process_none_iff sif x v).mpr hh] at hp
            cases hp
          have hb : (!(get_supported_files x.2).isEmpty) = true := by
            cases hgf : get_supported_files x.2 with
            | nil => exact absurd hgf hne
            | cons a l => rfl
          simp [hb, ih]
      | none =>
          have hemp : get_supported_files x.2 = [] := (process_none_iff sif x v).mp hp
          simp [hemp, ih]

/-- A string of positive length is not empty. -/
theorem ne_empty_of_length_pos {s : String} (h : 0 < s.length) : s ≠ "" := by
  intro hh
  rw [hh] at h
  exact absurd h (by decide)

/-- The head of a joined list bounds the length of the join from below. -/
theorem joinSep_head_le_length (sep m : String) (rest : List String) :
    m.length ≤ (joinSep sep (m :: rest)).length := by
  cases rest with
  | nil => simp [joinSep]
  | cons b bs =>
      simp only [joinSep, String.length_append]
      omega

/-- The formatted match summary of a non-empty match list headed by a
non-empty location label is non-empty. -/
theorem formatMatches_ne_empty (m : String) (rest : List String) (hm : m ≠ "") :
    formatMatches (m :: rest) ≠ "" := by
  have hm0 : 0 < m.length := by
    cases m with
    | mk d =>
        cases d with
        | nil => exact absurd rfl hm
        | cons c cs => simp [String.length]
  apply ne_empty_of_length_pos
  have h5 : (m :: rest).take 5 = m :: rest.take 4 := rfl
  simp only [formatMatches, h5, String.length_append]
  have := joinSep_head_le_length "; " m (rest.take 4)
  omega

/-- Every location label the csv row loop emits starts with "Row", so it is
never the empty string. -/
theorem mem_csvRows_ne_empty (v : String) : ∀ (lines : List String) (i : Nat) (m : String),
    m ∈ csvRows i lines v → m ≠ "" := by
  intro lines
  induction lines with
  | nil =>
      intro i m hm
      simp [csvRows] at hm
  | cons line rest ih =>
      intro i m hm
      simp only [csvRows] at hm
      by_cases hb : pyTrim line = ""
      · rw [if_pos hb] at hm
        exact ih (i + 1) m hm
      · rw [if_neg hb] at hm
        by_cases hmt : is_exact_match line v = true
        · rw [if_pos hmt] at hm
          rcases List.mem_cons.mp hm with h | h
          · have hRow : ("Row " : String).length = 4 := rfl
            cases hf : findCell (line.split fun c => c == ',') v 0 with
            | some col =>
                rw [hf] at h
                rw [h]
                apply ne_empty_of_length_pos
                simp only [String.length_append]
                omega
            | none =>
                rw [hf] at h
                rw [h]
                apply ne_empty_of_length_pos
                simp only [String.length_append]
                omega
          · exact ih (i + 1) m h
        · rw [if_neg hmt] at hm
          exact ih (i + 1) m hm

/-- The csv searcher never reports a match with an empty location summary. -/
theorem search_in_csv_some_ne_empty (file : Except Unit String) (v s : String)
    (h : search_in_csv file v = some s) : s ≠ "" := by
  cases file with
  | error e => exact Option.noConfusion h
  | ok content =>
      simp only [search_in_csv] at h
      by_cases hc : content = ""
      · rw [if_pos hc] at h
        cases h
      · rw [if_neg hc] at h
        by_cases hms : (csvRows 1 (splitLines content) v).isEmpty
        · rw [if_pos hms] at h
          cases h
        · rw [if_neg hms] at h
          injection h with h
          cases hrows : csvRows 1 (splitLines content) v with
          | nil =>
              rw [hrows] at hms
              exact absurd rfl hms
          | cons m rest =>
              rw [hrows] at h
              rw [← h]
              apply formatMatches_ne_empty
              exact mem_csvRows_ne_empty v (splitLines content) 1 m
                (by rw [hrows]; exact List.mem_cons_self _ _)

/-- C5 (amended): the coordinator outputs exactly one outcome per discovered
final folder that has at least one supported file; a final folder with no
supported files is silently skipped (process_single_folder returns none for
it and only for it, uniformly); and no outcome is ever produced for a folder
inside a skip-named ancestor, because no discovered folder path has a
skip-named component below its root.  The outcome count is exact: one per
final folder with a supported file.  (The "still reported with empty
candidate lists" reading is refuted by c5_counterexample.) -/
theorem c5_outcomes_exact :
    ∀ (sif : FileNode → String → Option String) (v : String) (roots : List FSTree),
      (∀ r, r ∈ search_in_final_folders sif v roots ↔
        ∃ pu ∈ find_all_final_folders roots, process_single_folder sif pu v = some r)
      ∧ (∀ pu : List String × FSTree,
          process_single_folder sif pu v = none ↔ get_supported_files pu.2 = [])
      ∧ (∀ pu ∈ find_all_final_folders roots, ∀ x ∈ pu.1.drop 1, isSkipName x = false)
      ∧ (search_in_final_folders sif v roots).length =
          ((find_all_final_folders roots).filter
            fun pu => !(get_supported_files pu.2).isEmpty).length := by
  intro sif v roots
  refine ⟨?_, ?_, ?_, folderLoop_process_length sif v _⟩
  · intro r
    rw [search_in_final_folders, mem_folderLoop]
    constructor
    · rintro ⟨f, hf, hstep⟩
      refine ⟨f, hf, ?_⟩
      injection hstep
    · rintro ⟨f, hf, hproc⟩
      exact ⟨f, hf, by rw [hproc]⟩
  · intro pu
    exact process_none_iff sif pu v
  · exact find_all_no_skip_below_root roots

/-- Witness for c5_outcomes_exact: on the single-folder tree r containing
one supported file, the coordinator output is exactly the one outcome the
theorem describes. -/
theorem c5_outcomes_exact_witness :
    ∃ r, r ∈ search_in_final_folders (fun _ _ => none) "anna"
      [FSTree.mk "r" [⟨"a.csv", 5⟩] []] := by
  have h := (c5_outcomes_exact (fun _ _ => none) "anna" [FSTree.mk "r" [⟨"a.csv", 5⟩] []]).1
  refine ⟨_, (h _).mpr ⟨(["r"], FSTree.mk "r" [⟨"a.csv", 5⟩] []), ?_, rfl⟩⟩
  rw [show find_all_final_folders [FSTree.mk "r" [⟨"a.csv", 5⟩] []] =
      [(["r"], FSTree.mk "r" [⟨"a.csv", 5⟩] [])] from rfl]
  exact List.mem_singleton_self _

/-- Counterexample to C5 as stated: the root folder r is discovered as a
final folder, has zero supported files, and the coordinator output is empty;
in particular no outcome with an empty candidate list is reported for it,
contradicting the "still reported with empty candidate lists" clause. -/
theorem c5_counterexample :
    find_all_final_folders [FSTree.mk "r" [] []] = [(["r"], FSTree.mk "r" [] [])]
    ∧ get_supported_files (FSTree.mk "r" [] []) = []
    ∧ search_in_final_folders (fun _ _ => none) "anna" [FSTree.mk "r" [] []] = [] :=
  ⟨rfl, rfl, rfl⟩

/-- C6: in every outcome the coordinator produces, search_found is true iff
search_details is present and non-empty (given that the per-file searcher
never reports a match with an empty location string - a property every
searcher in the program has, since each joins at least one non-empty
location label; it is proved here for the embedded csv searcher as the
second conjunct); and both are false/absent together whenever the candidate
list is empty or no file was selected. -/
theorem c6_outcome_invariant :
    ∀ (sif : FileNode → String → Option String) (v : String) (roots : List FSTree),
      ((∀ f s, sif f v = some s → s ≠ "") →
        ∀ r ∈ search_in_final_folders sif v roots,
          (r.search_found = true ↔ ∃ d, r.search_details = some d ∧ d ≠ "")
          ∧ ((r.all_files = [] ∨ r.searched_file = none) →
              r.search_found = false ∧ r.search_details = none))
      ∧ (∀ (file : Except Unit String) (s : String),
          search_in_csv file v = some s → s ≠ "") := by
  intro sif v roots
  refine ⟨?_, fun file s h => search_in_csv_some_ne_empty file v s h⟩
  intro hne r hr
  rw [search_in_final_folders, mem_folderLoop] at hr
  rcases hr with ⟨pu, _, hstep⟩
  have hproc : process_single_folder sif pu v = some r := by injection hstep
  simp only [process_single_folder] at hproc
  by_cases hE : (get_supported_files pu.2).isEmpty
  · rw [if_pos hE] at hproc
    cases hproc
  · rw [if_neg hE] at hproc
    have hfiles_ne : get_supported_files pu.2 ≠ [] := fun hh => hE (by simp [hh])
    split at hproc
    next m hm =>
        injection hproc with hrec
        subst hrec
        refine ⟨?_, ?_⟩
        · cases hs : sif m v with
          | some d =>
              constructor
              · intro _
                exact ⟨d, by simp [hs], hne m d hs⟩
              · intro _
                simp [hs]
          | none => simp [hs]
        · intro hpre
          exfalso
          rcases hpre with h1 | h1
          · have hnil := (sortByKey_eq_nil_iff (fun n => n) _).mp h1
            cases hgf : get_supported_files pu.2 with
            | nil => exact hfiles_ne hgf
            | cons a l =>
                rw [hgf] at hnil
                cases hnil
          · cases h1
    next hm =>
        injection hproc with hrec
        subst hrec
        refine ⟨?_, fun _ => ⟨rfl, rfl⟩⟩
        constructor
        · intro h
          cases h
        · rintro ⟨d, hd, _⟩
          cases hd

/-- Witness for c6_outcome_invariant on a one-folder tree with one
supported file and a searcher that always reports location "Row 1". -/
theorem c6_outcome_invariant_witness :
    ∃ r ∈ search_in_final_folders (fun _ _ => some "Row 1") "anna"
        [FSTree.mk "r" [⟨"a.csv", 5⟩] []],
      (r.search_found = true ↔ ∃ d, r.search_details = some d ∧ d ≠ "") := by
  have h := (c6_outcome_invariant (fun _ _ => some "Row 1") "anna"
    [FSTree.mk "r" [⟨"a.csv", 5⟩] []]).1
    (fun f s hs => by
      injection hs with hs
      rw [← hs]
      decide)
  have hmem : (⟨"r", "r", ["a.csv"], some "a.csv", some 5, true, some "Row 1"⟩ :
      FolderResult) ∈
      search_in_final_folders (fun _ _ => some "Row 1") "anna"
        [FSTree.mk "r" [⟨"a.csv", 5⟩] []] := by
    rw [show search_in_final_folders (fun _ _ => some "Row 1") "anna"
        [FSTree.mk "r" [⟨"a.csv", 5⟩] []] =
        [⟨"r", "r", ["a.csv"], some "a.csv", some 5, true, some "Row 1"⟩] from rfl]
    exact List.mem_singleton_self _
  exact ⟨_, hmem, (h _ hmem).1⟩

/-- C7: extraction failure is contained per file - a file whose read raises
makes search_in_csv return the no-match result none instead of propagating,
as does a decode that produces no content;
an error while processing one folder is swallowed by the per-folder handler
and leaves the outcomes of every other folder in the run unchanged; and the
process exits nonzero only when a required library is missing at startup
(the run itself is wrapped in a catch-all, so no run error reaches the exit
status). -/
theorem c7_error_containment :
    (∀ (e : Unit) (v : String), search_in_csv (Except.error e) v = none)
    ∧ (∀ v : String, search_in_csv (Except.ok "") v = none)
    ∧ (∀ (step : List String × FSTree → Except Unit (Option FolderResult))
         (l1 : List (List String × FSTree)) (x : List String × FSTree)
         (l2 : List (List String × FSTree)) (e : Unit),
        step x = Except.error e →
        folderLoop step (l1 ++ x :: l2) = folderLoop step (l1 ++ l2))
    ∧ (∀ (a b c : Bool) (run : Except Unit (List FolderResult)),
        (check_dependencies a b c = true → main_exit_code a b c run = 0)
        ∧ (main_exit_code a b c run ≠ 0 → check_dependencies a b c = false)) := by
  refine ⟨fun e v => rfl, fun v => rfl, folderLoop_error_skip, ?_⟩
  intro a b c run
  constructor
  · intro h
    simp [main_exit_code, h]
  · intro h
    by_cases hd : check_dependencies a b c = true
    · exfalso
      exact h (by simp [main_exit_code, hd])
    · revert hd
      cases check_dependencies a b c <;> simp
/-- Witness for c7_error_containment: a concrete failing read returns no
match, and a concrete folder whose step raises contributes nothing to the
run. -/
theorem c7_error_containment_witness :
    search_in_csv (Except.error ()) "anna" = none
    ∧ folderLoop (fun _ => Except.error ()) [(["r"], FSTree.mk "r" [] [])] =
        folderLoop (fun _ => Except.error ()) [] :=
  ⟨c7_error_containment.1 () "anna",
   c7_error_containment.2.2.1 (fun _ => Except.error ()) [] (["r"], FSTree.mk "r" [] []) [] ()
     rfl⟩

/-- C8: the outcome list of every run is ordered by the case-insensitive
lexicographic order of the full folder path strings (the final-folder list
is sorted by the lower-cased path and the sequential search loop preserves
that order; discovery order therefore cannot influence the presentation
order). -/
theorem c8_results_sorted :
    ∀ (sif : FileNode → String → Option String) (v : String) (roots : List FSTree),
      List.Pairwise
        (fun a b : FolderResult => strToLower a.folder_path ≤ strToLower b.folder_path)
        (search_in_final_folders sif v roots) := by
  intro sif v roots
  rw [search_in_final_folders]
  apply pairwise_folderLoop (fun folder => process_single_folder sif folder v)
    _ (fun pu1 pu2 => strToLower (pathStr pu1.1) ≤ strToLower (pathStr pu2.1))
  · exact pairwise_sortByKey _ _
  · intro p1 p2 r s hR hr hs
    rw [process_some_path sif p1 v r hr, process_some_path sif p2 v s hs]
    exact hR

end VS
